import Mathlib

/-!
# Verification of the funding-rate explorer's aggregation engine

Shallow embedding of `src/app.py`'s core (`get_min_max_date`, `process_data`)
over an in-memory event table.  An event row carries the calendar day (the
`Date` column derived by the loader), the asset symbol (`Base`), the venue
identifier (`Exchange`) and the funding rate (`FundingRate`, modelled as an
exact rational).

Pandas specifics modelled explicitly:
* `Series.min`/`Series.max` on an empty selection yield `NaT`; Python's
  built-in `max`/`min` on a `NaT` argument keep the first argument unless the
  second compares strictly greater/smaller, and every comparison against `NaT`
  is false (`pyMax`, `pyMin`, `dateGe`, `dateLe`).
* `groupby(...).sum()` with the default `sort=True` emits one row per key,
  keys sorted lexicographically; the subsequent
  `sort_values(["Base", "Exchange", "Date"])` is therefore the identity and
  the two steps are modelled as one sorted grouped sum (`daily_sum`).
* `groupby(...).cumsum()` is the running per-group prefix sum in row order
  (`with_cumulative`).
* `merge(..., on=["Base", "Date"])` is an inner equi-join preserving
  left-major order (`merged`).
-/

structure Event where
  date : Nat
  base : String
  exchange : String
  rate : ℚ
deriving DecidableEq

/-- A row of the `daily_sum` table before the cumulative column is added. -/
structure DRow where
  base : String
  exchange : String
  date : Nat
  dailyFunding : ℚ
deriving DecidableEq

/-- A row of the `daily_sum` table after `CumulativeFunding` is added. -/
structure CRow where
  base : String
  exchange : String
  date : Nat
  dailyFunding : ℚ
  cumulativeFunding : ℚ
deriving DecidableEq

/-- A row of the `merged` self-join table. -/
structure MRow where
  base : String
  date : Nat
  exchange_a : String
  dailyFunding_a : ℚ
  cumulativeFunding_a : ℚ
  exchange_b : String
  dailyFunding_b : ℚ
  cumulativeFunding_b : ℚ
deriving DecidableEq

/-- A row of `pair_df_2025`: the merged row plus the two advantage columns. -/
structure PairRow where
  base : String
  date : Nat
  exchange_a : String
  dailyFunding_a : ℚ
  cumulativeFunding_a : ℚ
  exchange_b : String
  dailyFunding_b : ℚ
  cumulativeFunding_b : ℚ
  along_bshort : ℚ
  blong_ashort : ℚ
deriving DecidableEq

/-- The `(Base, Exchange, Date)` group key of an event. -/
def ekey (e : Event) : String × String × Nat := (e.base, e.exchange, e.date)

/-- The `(Base, Exchange, Date)` key of a daily row. -/
def dkey (r : DRow) : String × String × Nat := (r.base, r.exchange, r.date)

/-- The `(Base, Exchange, Date)` key of a cumulative row. -/
def ckey (r : CRow) : String × String × Nat := (r.base, r.exchange, r.date)

/-- Lexicographic order on `(Base, Exchange, Date)` keys, the order pandas
sorts group keys by. -/
def keyLE (x y : String × String × Nat) : Prop :=
  x.1 < y.1 ∨ (x.1 = y.1 ∧ (x.2.1 < y.2.1 ∨ (x.2.1 = y.2.1 ∧ x.2.2 ≤ y.2.2)))

instance : DecidableRel keyLE := fun x y => by
  unfold keyLE; infer_instance

instance : IsTotal (String × String × Nat) keyLE where
  total x y := by
    rcases lt_trichotomy x.1 y.1 with h | h | h
    · exact Or.inl (Or.inl h)
    · rcases lt_trichotomy x.2.1 y.2.1 with h2 | h2 | h2
      · exact Or.inl (Or.inr ⟨h, Or.inl h2⟩)
      · rcases Nat.le_total x.2.2 y.2.2 with h3 | h3
        · exact Or.inl (Or.inr ⟨h, Or.inr ⟨h2, h3⟩⟩)
        · exact Or.inr (Or.inr ⟨h.symm, Or.inr ⟨h2.symm, h3⟩⟩)
      · exact Or.inr (Or.inr ⟨h.symm, Or.inl h2⟩)
    · exact Or.inr (Or.inl h)

instance : IsTrans (String × String × Nat) keyLE where
  trans x y z hxy hyz := by
    rcases hxy with h | ⟨e1, h⟩
    · rcases hyz with h' | ⟨e1', _⟩
      · exact Or.inl (h.trans h')
      · exact Or.inl (e1' ▸ h)
    · rcases hyz with h' | ⟨e1', h'⟩
      · exact Or.inl (e1 ▸ h')
      · refine Or.inr ⟨e1.trans e1', ?_⟩
        rcases h with h2 | ⟨e2, h3⟩
        · rcases h' with h2' | ⟨e2', _⟩
          · exact Or.inl (h2.trans h2')
          · exact Or.inl (e2' ▸ h2)
        · rcases h' with h2' | ⟨e2', h3'⟩
          · exact Or.inl (e2 ▸ h2')
          · exact Or.inr ⟨e2.trans e2', h3.trans h3'⟩

instance : IsAntisymm (String × String × Nat) keyLE where
  antisymm x y hxy hyx := by
    rcases hxy with h | ⟨e1, h⟩
    · rcases hyx with h' | ⟨e1', _⟩
      · exact absurd (h.trans h') (lt_irrefl _)
      · exact absurd h (e1' ▸ lt_irrefl _)
    · rcases hyx with h' | ⟨e1', h'⟩
      · exact absurd h' (e1 ▸ lt_irrefl _)
      · refine Prod.ext e1 (Prod.ext ?_ ?_)
        · rcases h with h2 | ⟨e2, _⟩
          · rcases h' with h2' | ⟨e2', _⟩
            · exact absurd (h2.trans h2') (lt_irrefl _)
            · exact absurd h2 (e2' ▸ lt_irrefl _)
          · exact e2
        · rcases h with h2 | ⟨e2, h3⟩
          · rcases h' with h2' | ⟨e2', _⟩
            · exact absurd (h2.trans h2') (lt_irrefl _)
            · exact absurd h2 (e2' ▸ lt_irrefl _)
          · rcases h' with h2' | ⟨e2', h3'⟩
            · exact absurd h2' (e2 ▸ lt_irrefl _)
            · exact Nat.le_antisymm h3 h3'

/-- `Series.min` of the `Date` column: `none` models pandas `NaT` on an empty
selection. -/
def listMin? : List Nat → Option Nat
  | [] => none
  | x :: xs =>
    match listMin? xs with
    | none => some x
    | some m => some (Nat.min x m)

/-- `Series.max` of the `Date` column, `none` for pandas `NaT`. -/
def listMax? : List Nat → Option Nat
  | [] => none
  | x :: xs =>
    match listMax? xs with
    | none => some x
    | some m => some (Nat.max x m)

/-- Python's built-in `max` over possibly-`NaT` timestamps: the second argument
wins only when it compares strictly greater, and every comparison against
`NaT` is false. -/
def pyMax : Option Nat → Option Nat → Option Nat
  | none, _ => none
  | some x, none => some x
  | some x, some y => some (Nat.max x y)

/-- Python's built-in `min` over possibly-`NaT` timestamps. -/
def pyMin : Option Nat → Option Nat → Option Nat
  | none, _ => none
  | some x, none => some x
  | some x, some y => some (Nat.min x y)

/-- `df.Date >= bound` in pandas: comparison against `NaT` is false. -/
def dateGe (d : Nat) : Option Nat → Bool
  | none => false
  | some m => decide (m ≤ d)

/-- `df.Date <= bound` in pandas: comparison against `NaT` is false. -/
def dateLe (d : Nat) : Option Nat → Bool
  | none => false
  | some m => decide (d ≤ m)

/-- `get_min_max_date(df, asset, exchange)`: min and max `Date` over the rows
with the given `Base` and `Exchange` (`none` = `NaT` when the selection is
empty). -/
def get_min_max_date (df : List Event) (asset exchange : String) :
    Option Nat × Option Nat :=
  let filtered := df.filter fun e =>
    decide (e.base = asset) && decide (e.exchange = exchange)
  (listMin? (filtered.map (·.date)), listMax? (filtered.map (·.date)))

/-- `min_date = max(min_exchange_a, min_exchange_b)` in `process_data`. -/
def windowStart (df : List Event) (asset exchange_a exchange_b : String) :
    Option Nat :=
  pyMax (get_min_max_date df asset exchange_a).1
    (get_min_max_date df asset exchange_b).1

/-- `max_date = min(max_exchange_a, max_exchange_b)` in `process_data`. -/
def windowEnd (df : List Event) (asset exchange_a exchange_b : String) :
    Option Nat :=
  pyMin (get_min_max_date df asset exchange_a).2
    (get_min_max_date df asset exchange_b).2

/-- The `subset` frame of `process_data`: rows inside the intersected window,
with the requested asset, restricted to the two requested venues. -/
def subsetOf (df : List Event) (asset exchange_a exchange_b : String) :
    List Event :=
  df.filter fun e =>
    dateGe e.date (windowStart df asset exchange_a exchange_b) &&
    dateLe e.date (windowEnd df asset exchange_a exchange_b) &&
    decide (e.base = asset) &&
    (decide (e.exchange = exchange_a) || decide (e.exchange = exchange_b))

/-- The sorted, deduplicated `(Base, Exchange, Date)` keys of a frame —
what `groupby(["Base", "Exchange", "Date"], sort=True)` groups by. -/
def groupKeys (l : List Event) : List (String × String × Nat) :=
  List.insertionSort keyLE (l.map ekey).dedup

/-- `subset.groupby(["Base", "Exchange", "Date"])["FundingRate"].sum()`
followed by `sort_values(["Base", "Exchange", "Date"])`: one row per key in
lexicographic key order (groupby already sorts, so `sort_values` is the
identity), summing the rates of the key's events. -/
def daily_sum (l : List Event) : List DRow :=
  (groupKeys l).map fun k =>
    ⟨k.1, k.2.1, k.2.2,
      ((l.filter fun e => decide (ekey e = k)).map (·.rate)).sum⟩

/-- Total `DailyFunding` of one `(Base, Exchange)` group inside a frame. -/
def groupTotal (g : String × String) (l : List DRow) : ℚ :=
  ((l.filter fun r => decide ((r.base, r.exchange) = g)).map
    (·.dailyFunding)).sum

/-- Recursion for `groupby(["Base", "Exchange"]).cumsum()`: each row's
running total is the group total over the rows seen so far (`pre`) plus
itself. -/
def cumsumAux : List DRow → List DRow → List CRow
  | _, [] => []
  | pre, r :: rs =>
    ⟨r.base, r.exchange, r.date, r.dailyFunding,
      groupTotal (r.base, r.exchange) (pre ++ [r])⟩ ::
    cumsumAux (pre ++ [r]) rs

/-- `daily_sum["CumulativeFunding"] = groupby(["Base", "Exchange"]).cumsum()`. -/
def with_cumulative (l : List DRow) : List CRow :=
  cumsumAux [] l

/-- The join condition of `merge(..., on=["Base", "Date"])`. -/
def joinPred (x y : CRow) : Bool :=
  decide (y.base = x.base) && decide (y.date = x.date)

/-- One joined row: left row `x` supplies the `_a` columns, right row `y` the
`_b` columns. -/
def mkMRow (x y : CRow) : MRow :=
  ⟨x.base, x.date, x.exchange, x.dailyFunding, x.cumulativeFunding,
    y.exchange, y.dailyFunding, y.cumulativeFunding⟩

/-- `daily_sum.merge(daily_sum, on=["Base", "Date"], suffixes=("_a", "_b"))`:
inner equi-join, left-major row order. -/
def merged (l : List CRow) : List MRow :=
  l.flatMap fun x => (l.filter (joinPred x)).map (mkMRow x)

/-- Adding the `along_bshort` and `blong_ashort` advantage columns. -/
def advRow (m : MRow) : PairRow :=
  ⟨m.base, m.date, m.exchange_a, m.dailyFunding_a, m.cumulativeFunding_a,
    m.exchange_b, m.dailyFunding_b, m.cumulativeFunding_b,
    m.cumulativeFunding_b - m.cumulativeFunding_a,
    m.cumulativeFunding_a - m.cumulativeFunding_b⟩

/-- `pair_df_2025`: the merged rows with `Exchange_a < Exchange_b`, extended
with the two advantage columns. -/
def pair_df (l : List CRow) : List PairRow :=
  ((merged l).filter fun m => decide (m.exchange_a < m.exchange_b)).map advRow

/-- The daily table `process_data` builds from its `subset`. -/
def dailyTable (df : List Event) (asset exchange_a exchange_b : String) :
    List DRow :=
  daily_sum (subsetOf df asset exchange_a exchange_b)

/-- The cumulative daily table `process_data` builds from its `subset`. -/
def cumTable (df : List Event) (asset exchange_a exchange_b : String) :
    List CRow :=
  with_cumulative (dailyTable df asset exchange_a exchange_b)

/-- The final filter of `process_data`: keep the requested
`(Base, Exchange_a, Exchange_b)`. -/
def finalPred (asset exchange_a exchange_b : String) (r : PairRow) : Bool :=
  decide (r.base = asset) && decide (r.exchange_a = exchange_a) &&
  decide (r.exchange_b = exchange_b)

/-- `process_data(df, asset, exchange_a, exchange_b)`: the full pipeline,
ending with the filter to the requested `(Base, Exchange_a, Exchange_b)`. -/
def process_data (df : List Event) (asset exchange_a exchange_b : String) :
    List PairRow :=
  (pair_df (cumTable df asset exchange_a exchange_b)).filter
    (finalPred asset exchange_a exchange_b)

/-- The spec's described variant (§4.4/§9): the same pipeline but with the
`subset` NOT restricted to the two requested venues — the grouped sum,
cumulative sum and self-join run over all venues present for the asset inside
the window, and only the final filter selects the requested canonical pair. -/
def subsetAllVenues (df : List Event) (asset exchange_a exchange_b : String) :
    List Event :=
  df.filter fun e =>
    dateGe e.date (windowStart df asset exchange_a exchange_b) &&
    dateLe e.date (windowEnd df asset exchange_a exchange_b) &&
    decide (e.base = asset)

/-- The full pipeline over `subsetAllVenues`: join across all venues present,
filter to the requested pair only at the end (spec §4.4's description). -/
def process_data_all_venues (df : List Event)
    (asset exchange_a exchange_b : String) : List PairRow :=
  (pair_df (with_cumulative
      (daily_sum (subsetAllVenues df asset exchange_a exchange_b)))).filter
    (finalPred asset exchange_a exchange_b)

/-- The combined per-pair selection the final stage of the pipeline applies to
a joined pair `(x, y)`: the join condition, the canonical-order tie-break and
the final `(Base, Exchange_a, Exchange_b)` filter. -/
def pairSel (asset exchange_a exchange_b : String) (x y : CRow) : Bool :=
  (finalPred asset exchange_a exchange_b (advRow (mkMRow x y)) &&
    decide ((mkMRow x y).exchange_a < (mkMRow x y).exchange_b)) &&
  joinPred x y

/-! ## Structural lemmas about the grouped tables -/

/-- Projection of a cumulative row back to its daily row. -/
def cdrow (c : CRow) : DRow := ⟨c.base, c.exchange, c.date, c.dailyFunding⟩

/-- The sum of the rates of the events of one `(Base, Exchange, Date)` key. -/
def eventSum (k : String × String × Nat) (l : List Event) : ℚ :=
  ((l.filter fun e => decide (ekey e = k)).map (·.rate)).sum

theorem keyLE_date_le {x y : String × String × Nat} (h : keyLE x y)
    (h1 : x.1 = y.1) (h2 : x.2.1 = y.2.1) : x.2.2 ≤ y.2.2 := by
  rcases h with h | ⟨_, h | ⟨_, h⟩⟩
  · exact absurd (h1 ▸ h) (lt_irrefl _)
  · exact absurd (h2 ▸ h) (lt_irrefl _)
  · exact h

theorem groupKeys_nodup (l : List Event) : (groupKeys l).Nodup :=
  ((List.perm_insertionSort keyLE _).nodup_iff).mpr (List.nodup_dedup _)

theorem groupKeys_sorted (l : List Event) : List.Sorted keyLE (groupKeys l) :=
  List.sorted_insertionSort keyLE _

theorem mem_groupKeys {l : List Event} {k : String × String × Nat} :
    k ∈ groupKeys l ↔ ∃ e ∈ l, ekey e = k := by
  unfold groupKeys
  rw [(List.perm_insertionSort keyLE _).mem_iff, List.mem_dedup, List.mem_map]

theorem daily_sum_eq_map (l : List Event) :
    daily_sum l = (groupKeys l).map fun k => ⟨k.1, k.2.1, k.2.2, eventSum k l⟩ :=
  rfl

theorem daily_sum_map_dkey (l : List Event) :
    (daily_sum l).map dkey = groupKeys l := by
  rw [daily_sum_eq_map, List.map_map]
  exact List.map_id _

theorem daily_sum_sorted (l : List Event) :
    List.Sorted (fun r s : DRow => keyLE (dkey r) (dkey s)) (daily_sum l) := by
  have h := groupKeys_sorted l
  rw [← daily_sum_map_dkey] at h
  exact (List.pairwise_map).mp h

theorem daily_sum_nodup_keys (l : List Event) :
    ((daily_sum l).map dkey).Nodup := by
  rw [daily_sum_map_dkey]; exact groupKeys_nodup l

theorem mem_daily_sum {l : List Event} {r : DRow} (h : r ∈ daily_sum l) :
    dkey r ∈ groupKeys l ∧ r.dailyFunding = eventSum (dkey r) l := by
  rw [daily_sum_eq_map, List.mem_map] at h
  obtain ⟨k, hk, rfl⟩ := h
  exact ⟨hk, rfl⟩

theorem cumsumAux_map_cdrow (l : List DRow) :
    ∀ pre, (cumsumAux pre l).map cdrow = l := by
  induction l with
  | nil => intro pre; rfl
  | cons r rs ih =>
    intro pre
    simp only [cumsumAux, List.map_cons, cdrow]
    exact congrArg (_ :: ·) (ih (pre ++ [r]))

theorem with_cumulative_map_cdrow (l : List DRow) :
    (with_cumulative l).map cdrow = l :=
  cumsumAux_map_cdrow l []

/-- The restriction "same `(Base, Exchange)` group, day at most `D`". -/
def upTo (β ε : String) (D : Nat) (r : DRow) : Bool :=
  decide (r.base = β) && decide (r.exchange = ε) && decide (r.date ≤ D)

/-- `groupby(["Base", "Exchange"]).cumsum()` on a key-sorted, key-unique frame:
every produced running total is the sum of the group's daily totals up to and
including the row's day. -/
theorem cumsumAux_cum (l : List DRow) :
    ∀ pre, List.Sorted (fun r s : DRow => keyLE (dkey r) (dkey s)) (pre ++ l) →
    ((pre ++ l).map dkey).Nodup →
    ∀ c ∈ cumsumAux pre l,
      c.cumulativeFunding =
        (((pre ++ l).filter (upTo c.base c.exchange c.date)).map
          (·.dailyFunding)).sum := by
  induction l with
  | nil => intro pre _ _ c hc; simp [cumsumAux] at hc
  | cons r rs ih =>
    intro pre hs hn c hc
    have hsplit : pre ++ r :: rs = (pre ++ [r]) ++ rs := by simp
    rcases List.mem_cons.mp hc with rfl | hc
    · -- the head row: running total = group total over pre ++ [r]
      show groupTotal (r.base, r.exchange) (pre ++ [r]) = _
      have hrs_none :
          (rs.filter (upTo r.base r.exchange r.date)) = [] := by
        rw [List.filter_eq_nil_iff]
        intro s hsmem hup
        simp only [upTo, Bool.and_eq_true, decide_eq_true_eq] at hup
        obtain ⟨⟨hb, he⟩, hd⟩ := hup
        have hrel : keyLE (dkey r) (dkey s) := by
          have h2 := (List.pairwise_append.mp hs).2.1
          exact (List.pairwise_cons.mp h2).1 s hsmem
        have hled : r.date ≤ s.date := keyLE_date_le hrel hb.symm he.symm
        have hnotin : dkey r ∉ rs.map dkey := by
          have h2 : ((r :: rs).map dkey).Nodup := by
            rw [List.map_append] at hn
            exact hn.of_append_right
          exact (List.nodup_cons.mp h2).1
        refine hnotin (List.mem_map.mpr ⟨s, hsmem, ?_⟩)
        have hdd : s.date = r.date := Nat.le_antisymm hd hled
        simp [dkey, hb, he, hdd]
      have hr_true : upTo r.base r.exchange r.date r = true := by
        simp [upTo]
      have hpre_eq :
          pre.filter (fun t => decide ((t.base, t.exchange) = (r.base, r.exchange)))
            = pre.filter (upTo r.base r.exchange r.date) := by
        refine List.filter_congr ?_
        intro t ht
        have hdate : t.base = r.base → t.exchange = r.exchange → t.date ≤ r.date := by
          intro hb he
          have hrel : keyLE (dkey t) (dkey r) :=
            (List.pairwise_append.mp hs).2.2 t ht r (List.mem_cons_self r rs)
          exact keyLE_date_le hrel hb he
        by_cases hb : t.base = r.base
        · by_cases he : t.exchange = r.exchange
          · simp [upTo, hb, he, hdate hb he]
          · simp [upTo, hb, he]
        · simp [upTo, hb]
      rw [List.filter_append, List.filter_cons_of_pos hr_true, hrs_none]
      unfold groupTotal
      rw [List.filter_append, hpre_eq]
      simp
    · -- a later row: apply the induction hypothesis with `pre ++ [r]`
      rw [hsplit] at hs hn ⊢
      exact ih (pre ++ [r]) hs hn c hc

theorem with_cumulative_cum {l : List DRow}
    (hs : List.Sorted (fun r s : DRow => keyLE (dkey r) (dkey s)) l)
    (hn : (l.map dkey).Nodup) :
    ∀ c ∈ with_cumulative l,
      c.cumulativeFunding =
        ((l.filter (upTo c.base c.exchange c.date)).map (·.dailyFunding)).sum :=
  cumsumAux_cum l [] hs hn

theorem cdrow_mem_of_mem_with_cumulative {l : List DRow} {c : CRow}
    (h : c ∈ with_cumulative l) : cdrow c ∈ l := by
  rw [← with_cumulative_map_cdrow l]
  exact List.mem_map_of_mem cdrow h

/-! ## The final stage in join-normal form -/

theorem pairStage (M : List CRow) (asset exchange_a exchange_b : String) :
    (pair_df M).filter (finalPred asset exchange_a exchange_b) =
      M.flatMap fun x =>
        (M.filter (pairSel asset exchange_a exchange_b x)).map
          fun y => advRow (mkMRow x y) := by
  unfold pair_df merged
  rw [List.filter_map, List.filter_filter, List.filter_flatMap,
    List.map_flatMap]
  simp only [List.filter_map, List.filter_filter, List.map_map]
  rfl

theorem pairSel_eq_true_iff {asset exchange_a exchange_b : String}
    {x y : CRow} :
    pairSel asset exchange_a exchange_b x y = true ↔
      x.base = asset ∧ x.exchange = exchange_a ∧ y.exchange = exchange_b ∧
      x.exchange < y.exchange ∧ y.base = x.base ∧ y.date = x.date := by
  simp only [pairSel, finalPred, advRow, mkMRow, joinPred, Bool.and_eq_true,
    decide_eq_true_eq]
  tauto

theorem mem_process_data {df : List Event} {asset exchange_a exchange_b : String}
    {r : PairRow} :
    r ∈ process_data df asset exchange_a exchange_b ↔
      ∃ x ∈ cumTable df asset exchange_a exchange_b,
        ∃ y ∈ cumTable df asset exchange_a exchange_b,
          pairSel asset exchange_a exchange_b x y = true ∧
          r = advRow (mkMRow x y) := by
  unfold process_data
  rw [pairStage]
  simp only [List.mem_flatMap, List.mem_map, List.mem_filter]
  constructor
  · rintro ⟨x, hx, y, ⟨hy, hsel⟩, rfl⟩
    exact ⟨x, hx, y, hy, hsel, rfl⟩
  · rintro ⟨x, hx, y, hy, hsel, rfl⟩
    exact ⟨x, hx, y, ⟨hy, hsel⟩, rfl⟩

/-! ## The concrete scenario of spec §8 -/
def specEvents : List Event :=
  [⟨1, "BTC", "X", 1/10000⟩, ⟨2, "BTC", "X", 2/10000⟩,
   ⟨1, "BTC", "Y", -1/10000⟩, ⟨2, "BTC", "Y", 1/10000⟩]

theorem spec_window_start : windowStart specEvents "BTC" "X" "Y" = some 1 := by
  simp [windowStart, get_min_max_date, specEvents, listMin?, pyMax]

theorem spec_window_end : windowEnd specEvents "BTC" "X" "Y" = some 2 := by
  simp [windowEnd, get_min_max_date, specEvents, listMax?, pyMin]

theorem spec_subset : subsetOf specEvents "BTC" "X" "Y" = specEvents := by
  rw [subsetOf, spec_window_start, spec_window_end]
  simp [specEvents, dateGe, dateLe]

theorem spec_groupKeys :
    groupKeys specEvents =
      [("BTC","X",1), ("BTC","X",2), ("BTC","Y",1), ("BTC","Y",2)] := by
  simp [groupKeys, specEvents, ekey, List.dedup, List.insertionSort,
    List.orderedInsert, keyLE]

theorem spec_daily :
    dailyTable specEvents "BTC" "X" "Y" =
      [⟨"BTC","X",1,1/10000⟩, ⟨"BTC","X",2,1/5000⟩,
       ⟨"BTC","Y",1,-1/10000⟩, ⟨"BTC","Y",2,1/10000⟩] := by
  rw [dailyTable, spec_subset, daily_sum_eq_map, spec_groupKeys]
  simp [eventSum, specEvents, ekey, List.filter_cons, List.filter_nil]
  norm_num

theorem spec_cum :
    cumTable specEvents "BTC" "X" "Y" =
      [⟨"BTC","X",1,1/10000,1/10000⟩, ⟨"BTC","X",2,1/5000,3/10000⟩,
       ⟨"BTC","Y",1,-1/10000,-1/10000⟩, ⟨"BTC","Y",2,1/10000,0⟩] := by
  rw [cumTable, spec_daily]
  simp [with_cumulative, cumsumAux, groupTotal, List.filter_cons, List.filter_nil]
  norm_num

def specRow1 : PairRow :=
  ⟨"BTC", 1, "X", 1/10000, 1/10000, "Y", -1/10000, -1/10000, -1/5000, 1/5000⟩

def specRow2 : PairRow :=
  ⟨"BTC", 2, "X", 1/5000, 3/10000, "Y", 1/10000, 0, -3/10000, 3/10000⟩

theorem spec_eval :
    process_data specEvents "BTC" "X" "Y" = [specRow1, specRow2] := by
  have h1 : (['X'] < ['Y']) := by decide
  have h2 : ¬ (['Y'] < ['X']) := by decide
  rw [process_data, spec_cum]
  simp [pair_df, merged, joinPred, mkMRow, advRow, finalPred, specRow1,
    specRow2, h1, h2, List.filter_cons, List.filter_nil]
  norm_num

/-! ## Claims -/

/-- C9: On the four-event table {(BTC, X, day1, 0.0001), (BTC, X, day2,
0.0002), (BTC, Y, day1, -0.0001), (BTC, Y, day2, 0.0001)}, `process_data`
for asset BTC and venue pair (X, Y) yields daily totals X/day1=0.0001,
X/day2=0.0002 with cumulatives 0.0001 and 0.0003, Y/day1=-0.0001,
Y/day2=0.0001 with cumulatives -0.0001 and 0.0000, and the day-2 output row
has advantage_long_X_short_Y = -0.0003 and advantage_long_Y_short_X = 0.0003,
in exact rational arithmetic. -/
theorem C9_concrete_scenario :
    dailyTable specEvents "BTC" "X" "Y" =
      [⟨"BTC","X",1,1/10000⟩, ⟨"BTC","X",2,2/10000⟩,
       ⟨"BTC","Y",1,-1/10000⟩, ⟨"BTC","Y",2,1/10000⟩] ∧
    cumTable specEvents "BTC" "X" "Y" =
      [⟨"BTC","X",1,1/10000,1/10000⟩, ⟨"BTC","X",2,2/10000,3/10000⟩,
       ⟨"BTC","Y",1,-1/10000,-1/10000⟩, ⟨"BTC","Y",2,1/10000,0⟩] ∧
    process_data specEvents "BTC" "X" "Y" = [specRow1, specRow2] ∧
    specRow2.date = 2 ∧
    specRow2.cumulativeFunding_a = 3/10000 ∧
    specRow2.cumulativeFunding_b = 0 ∧
    specRow2.along_bshort = -3/10000 ∧
    specRow2.blong_ashort = 3/10000 := by
  refine ⟨?_, ?_, spec_eval, rfl, rfl, rfl, ?_, rfl⟩
  · rw [spec_daily]; norm_num
  · rw [spec_cum]; norm_num
  · norm_num [specRow2]

/-- C2: every row returned by `process_data` has
`along_bshort = CumulativeFunding_b - CumulativeFunding_a` and
`blong_ashort = CumulativeFunding_a - CumulativeFunding_b`, so the two
advantage fields are exact negations of each other. -/
theorem C2_advantage_fields (df : List Event)
    (asset exchange_a exchange_b : String) :
    ∀ r ∈ process_data df asset exchange_a exchange_b,
      r.along_bshort = r.cumulativeFunding_b - r.cumulativeFunding_a ∧
      r.blong_ashort = r.cumulativeFunding_a - r.cumulativeFunding_b ∧
      r.blong_ashort = -r.along_bshort := by
  intro r hr
  obtain ⟨x, -, y, -, -, rfl⟩ := mem_process_data.mp hr
  exact ⟨rfl, rfl, (neg_sub _ _).symm⟩

/-- Witness for C2 at the concrete day-2 row of the §8 scenario. -/
theorem C2_advantage_fields_witness :
    specRow2.along_bshort =
      specRow2.cumulativeFunding_b - specRow2.cumulativeFunding_a ∧
    specRow2.blong_ashort =
      specRow2.cumulativeFunding_a - specRow2.cumulativeFunding_b ∧
    specRow2.blong_ashort = -specRow2.along_bshort :=
  C2_advantage_fields specEvents "BTC" "X" "Y" specRow2
    (by rw [spec_eval]; simp)

/-- C10: if the requested venue identifiers are not in strictly ascending
lexicographic order (`exchange_a ≥ exchange_b`, including equality),
`process_data` returns the empty sequence, because every surviving row needs
`Exchange_a < Exchange_b` together with `Exchange_a = exchange_a` and
`Exchange_b = exchange_b`. -/
theorem C10_reversed_pair_empty (df : List Event)
    (asset exchange_a exchange_b : String)
    (h : ¬ exchange_a < exchange_b) :
    process_data df asset exchange_a exchange_b = [] := by
  rw [List.eq_nil_iff_forall_not_mem]
  intro r hr
  obtain ⟨x, -, y, -, hsel, -⟩ := mem_process_data.mp hr
  obtain ⟨-, hxa, hyb, hlt, -, -⟩ := pairSel_eq_true_iff.mp hsel
  exact h (by rw [← hxa, ← hyb]; exact hlt)

/-- Witness for C10: the §8 table queried with the pair reversed, (Y, X),
although both venues have overlapping data. -/
theorem C10_reversed_pair_empty_witness :
    process_data specEvents "BTC" "Y" "X" = [] :=
  C10_reversed_pair_empty specEvents "BTC" "Y" "X"
    (fun h => absurd (String.lt_iff_toList_lt.mp h) (by decide))

/-! ## Tracing cumulative rows back to events -/

theorem mem_subsetOf {df : List Event} {asset exchange_a exchange_b : String}
    {e : Event} (h : e ∈ subsetOf df asset exchange_a exchange_b) :
    e ∈ df ∧
      dateGe e.date (windowStart df asset exchange_a exchange_b) = true ∧
      dateLe e.date (windowEnd df asset exchange_a exchange_b) = true ∧
      e.base = asset ∧ (e.exchange = exchange_a ∨ e.exchange = exchange_b) := by
  rw [subsetOf, List.mem_filter] at h
  obtain ⟨hdf, hcond⟩ := h
  simp only [Bool.and_eq_true, Bool.or_eq_true, decide_eq_true_eq] at hcond
  exact ⟨hdf, hcond.1.1.1, hcond.1.1.2, hcond.1.2, hcond.2⟩

theorem exists_event_of_mem_cumTable {df : List Event}
    {asset exchange_a exchange_b : String} {x : CRow}
    (hx : x ∈ cumTable df asset exchange_a exchange_b) :
    ∃ e ∈ subsetOf df asset exchange_a exchange_b,
      e.base = x.base ∧ e.exchange = x.exchange ∧ e.date = x.date := by
  have hd : cdrow x ∈ dailyTable df asset exchange_a exchange_b :=
    cdrow_mem_of_mem_with_cumulative hx
  have hk := (mem_daily_sum hd).1
  obtain ⟨e, he, hek⟩ := mem_groupKeys.mp hk
  refine ⟨e, he, ?_⟩
  have : ekey e = (x.base, x.exchange, x.date) := hek
  simp only [ekey, Prod.mk.injEq] at this
  exact ⟨this.1, this.2.1, this.2.2⟩

/-- C5: if either requested venue has zero events for the asset, the whole
pipeline yields the empty sequence.  The embedding is a total function (the
pandas `NaT` comparisons are modelled as always-false), so no exception can
be raised. -/
theorem C5_missing_venue_empty (df : List Event)
    (asset exchange_a exchange_b : String)
    (h : df.filter (fun e => decide (e.base = asset) &&
           decide (e.exchange = exchange_a)) = [] ∨
         df.filter (fun e => decide (e.base = asset) &&
           decide (e.exchange = exchange_b)) = []) :
    process_data df asset exchange_a exchange_b = [] := by
  rw [List.eq_nil_iff_forall_not_mem]
  intro r hr
  obtain ⟨x, hx, y, hy, hsel, -⟩ := mem_process_data.mp hr
  obtain ⟨hxb, hxa, hyeb, -, hybx, -⟩ := pairSel_eq_true_iff.mp hsel
  rcases h with h | h
  · obtain ⟨e, he, hb, hex, -⟩ := exists_event_of_mem_cumTable hx
    have hmem : e ∈ df.filter (fun e => decide (e.base = asset) &&
        decide (e.exchange = exchange_a)) :=
      List.mem_filter.mpr ⟨(mem_subsetOf he).1, by simp [hb, hxb, hex, hxa]⟩
    rw [h] at hmem
    exact List.not_mem_nil _ hmem
  · obtain ⟨e, he, hb, hex, -⟩ := exists_event_of_mem_cumTable hy
    have hmem : e ∈ df.filter (fun e => decide (e.base = asset) &&
        decide (e.exchange = exchange_b)) :=
      List.mem_filter.mpr ⟨(mem_subsetOf he).1,
        by simp [hb, hybx, hxb, hex, hyeb]⟩
    rw [h] at hmem
    exact List.not_mem_nil _ hmem

/-- Witness for C5: a table where venue Y has zero BTC events. -/
theorem C5_missing_venue_empty_witness :
    process_data [⟨1, "BTC", "X", 1⟩] "BTC" "X" "Y" = [] :=
  C5_missing_venue_empty [⟨1, "BTC", "X", 1⟩] "BTC" "X" "Y"
    (Or.inr (by simp))

/-! ## Uniqueness of canonical venue pairs -/

/-- The identifying columns of a merged row. -/
def maddr (m : MRow) : String × Nat × String × String :=
  (m.base, m.date, m.exchange_a, m.exchange_b)

/-- The identifying columns of an output row. -/
def paddr (r : PairRow) : String × Nat × String × String :=
  (r.base, r.date, r.exchange_a, r.exchange_b)

theorem with_cumulative_map_ckey (l : List DRow) :
    (with_cumulative l).map ckey = l.map dkey := by
  rw [show (ckey : CRow → _) = dkey ∘ cdrow from rfl, ← List.map_map,
    with_cumulative_map_cdrow]

theorem cumTable_nodup_keys (df : List Event)
    (asset exchange_a exchange_b : String) :
    ((cumTable df asset exchange_a exchange_b).map ckey).Nodup := by
  rw [cumTable, with_cumulative_map_ckey, dailyTable]
  exact daily_sum_nodup_keys _

theorem cumTable_sorted (df : List Event)
    (asset exchange_a exchange_b : String) :
    List.Sorted (fun x y : CRow => keyLE (ckey x) (ckey y))
      (cumTable df asset exchange_a exchange_b) := by
  have h := daily_sum_sorted (subsetOf df asset exchange_a exchange_b)
  rw [← with_cumulative_map_cdrow
    (daily_sum (subsetOf df asset exchange_a exchange_b))] at h
  exact List.Pairwise.of_map cdrow (fun a b hab => hab) h

theorem merged_pairwise_addr {L : List CRow} (hn : (L.map ckey).Nodup) :
    (merged L).Pairwise (fun m1 m2 => maddr m1 ≠ maddr m2) := by
  have hpw : L.Pairwise (fun x y => ckey x ≠ ckey y) := (List.pairwise_map).mp hn
  rw [merged, List.pairwise_flatMap]
  constructor
  · intro x _
    rw [List.pairwise_map]
    refine List.Pairwise.imp_of_mem ?_ ((hpw.filter (joinPred x)))
    intro y1 y2 h1 h2 hne heq
    have hj1 := (List.mem_filter.mp h1).2
    have hj2 := (List.mem_filter.mp h2).2
    simp only [joinPred, Bool.and_eq_true, decide_eq_true_eq] at hj1 hj2
    simp only [maddr, mkMRow, Prod.mk.injEq] at heq
    exact hne (by
      simp [ckey, hj1.1, hj2.1, hj1.2, hj2.2, heq.2.2.2])
  · refine hpw.imp ?_
    intro x1 x2 hne u hu v hv heq
    obtain ⟨y1, -, rfl⟩ := List.mem_map.mp hu
    obtain ⟨y2, -, rfl⟩ := List.mem_map.mp hv
    simp only [maddr, mkMRow, Prod.mk.injEq] at heq
    exact hne (by simp [ckey, heq.1, heq.2.1, heq.2.2.1])

theorem pair_df_pairwise_addr {L : List CRow} (hn : (L.map ckey).Nodup) :
    (pair_df L).Pairwise (fun r1 r2 => paddr r1 ≠ paddr r2) := by
  rw [pair_df, List.pairwise_map]
  exact ((merged_pairwise_addr hn).filter _).imp (fun h => h)

theorem length_filter_le_one_of_pairwise {α : Type} {p : α → Bool}
    {l : List α}
    (h : l.Pairwise (fun a b => ¬(p a = true ∧ p b = true))) :
    (l.filter p).length ≤ 1 := by
  induction l with
  | nil => simp
  | cons a t ih =>
    obtain ⟨ha, ht⟩ := List.pairwise_cons.mp h
    rw [List.filter_cons]
    by_cases hp : p a = true
    · have hnil : t.filter p = [] :=
        List.filter_eq_nil_iff.mpr (fun b hb hpb => ha b hb ⟨hp, hpb⟩)
      simp [hp, hnil]
    · simp only [hp]
      simpa using ih ht

/-- C3: every row of the joined-and-filtered pair table (`pair_df_2025`
before the final venue filter) satisfies `Exchange_a < Exchange_b` (in
particular never a self-pair), and for each `(Base, Date)` each unordered
venue pair appears in at most one row. -/
theorem C3_canonical_pair_invariant (df : List Event)
    (asset exchange_a exchange_b : String) :
    (∀ m ∈ pair_df (cumTable df asset exchange_a exchange_b),
        m.exchange_a < m.exchange_b ∧ m.exchange_a ≠ m.exchange_b) ∧
    ∀ (β : String) (d : Nat) (x y : String),
      ((pair_df (cumTable df asset exchange_a exchange_b)).filter fun r =>
          decide (r.base = β) && decide (r.date = d) &&
          (decide (r.exchange_a = x) && decide (r.exchange_b = y) ||
            decide (r.exchange_a = y) && decide (r.exchange_b = x))).length
        ≤ 1 := by
  have hlt : ∀ m ∈ pair_df (cumTable df asset exchange_a exchange_b),
      m.exchange_a < m.exchange_b := by
    intro m hm
    rw [pair_df] at hm
    obtain ⟨m', hm', rfl⟩ := List.mem_map.mp hm
    have := (List.mem_filter.mp hm').2
    simpa [advRow] using this
  refine ⟨fun m hm => ⟨hlt m hm, ne_of_lt (hlt m hm)⟩, ?_⟩
  intro β d x y
  refine length_filter_le_one_of_pairwise ?_
  have hpw := pair_df_pairwise_addr
    (cumTable_nodup_keys df asset exchange_a exchange_b)
  refine List.Pairwise.imp_of_mem ?_ hpw
  intro r1 r2 h1 h2 hne ⟨hp1, hp2⟩
  simp only [Bool.and_eq_true, Bool.or_eq_true, decide_eq_true_eq] at hp1 hp2
  obtain ⟨⟨hb1, hd1⟩, hxy1⟩ := hp1
  obtain ⟨⟨hb2, hd2⟩, hxy2⟩ := hp2
  rcases hxy1 with ⟨ha1, hb1'⟩ | ⟨ha1, hb1'⟩ <;>
    rcases hxy2 with ⟨ha2, hb2'⟩ | ⟨ha2, hb2'⟩
  · exact hne (by simp [paddr, hb1, hb2, hd1, hd2, ha1, ha2, hb1', hb2'])
  · exact absurd (hlt r2 h2)
      (by rw [ha2, hb2']; exact fun hc => absurd hc (lt_asymm
        (by rw [← ha1, ← hb1']; exact hlt r1 h1)))
  · exact absurd (hlt r1 h1)
      (by rw [ha1, hb1']; exact fun hc => absurd hc (lt_asymm
        (by rw [← ha2, ← hb2']; exact hlt r2 h2)))
  · exact hne (by simp [paddr, hb1, hb2, hd1, hd2, ha1, ha2, hb1', hb2'])

/-- The unfiltered pair table of the concrete §8 scenario. -/
theorem spec_pair_df :
    pair_df (cumTable specEvents "BTC" "X" "Y") = [specRow1, specRow2] := by
  have h1 : (['X'] < ['Y']) := by decide
  have h2 : ¬ (['Y'] < ['X']) := by decide
  rw [spec_cum]
  simp [pair_df, merged, joinPred, mkMRow, advRow, specRow1, specRow2, h1, h2,
    List.filter_cons, List.filter_nil]
  norm_num

/-- Witness for C3 applied at the concrete §8 scenario: the day-2 pair row
has the canonical venue order. -/
theorem C3_canonical_pair_invariant_witness :
    specRow2.exchange_a < specRow2.exchange_b ∧
    specRow2.exchange_a ≠ specRow2.exchange_b :=
  (C3_canonical_pair_invariant specEvents "BTC" "X" "Y").1 specRow2
    (by rw [spec_pair_df]; simp)

/-! ## Daily aggregation key multiplicity -/

theorem length_filter_eq_one_of_nodup {α : Type} [DecidableEq α]
    {K : List α} (hK : K.Nodup) {k : α} (hk : k ∈ K) :
    (K.filter fun x => decide (x = k)).length = 1 := by
  induction K with
  | nil => simp at hk
  | cons a t ih =>
    obtain ⟨hna, hnt⟩ := List.nodup_cons.mp hK
    rw [List.filter_cons]
    by_cases hak : a = k
    · subst hak
      have hnil : t.filter (fun x => decide (x = a)) = [] :=
        List.filter_eq_nil_iff.mpr (fun b hb hpb => by
          simp only [decide_eq_true_eq] at hpb
          exact hna (hpb ▸ hb))
      simp [hnil]
    · have h1 : decide (a = k) = false := by simp [hak]
      rw [h1]
      simp only [Bool.false_eq_true, if_false]
      exact ih hnt (by
        rcases List.mem_cons.mp hk with h | h
        · exact absurd h.symm hak
        · exact h)

theorem length_filter_eq_zero_of_not_mem {α : Type} [DecidableEq α]
    {K : List α} {k : α} (hk : k ∉ K) :
    (K.filter fun x => decide (x = k)).length = 0 := by
  rw [List.length_eq_zero, List.filter_eq_nil_iff]
  intro b hb hpb
  simp only [decide_eq_true_eq] at hpb
  exact hk (hpb ▸ hb)

/-- C6: the daily aggregation emits exactly one `DailyFunding` row for every
`(Base, Exchange, Date)` triple with at least one event in the intersected
window subset, and no row at all for a triple with no event — no zero-filled
rows, and the daily calendar may be sparse. -/
theorem C6_daily_rows_iff_events (df : List Event)
    (asset exchange_a exchange_b : String) (k : String × String × Nat) :
    ((dailyTable df asset exchange_a exchange_b).filter fun r =>
        decide (dkey r = k)).length =
      if ∃ e ∈ subsetOf df asset exchange_a exchange_b, ekey e = k
      then 1 else 0 := by
  rw [dailyTable, daily_sum_eq_map, List.filter_map, List.length_map]
  rw [show ((fun r => decide (dkey r = k)) ∘
      (fun k' : String × String × Nat =>
        (⟨k'.1, k'.2.1, k'.2.2, eventSum k' (subsetOf df asset exchange_a
          exchange_b)⟩ : DRow))) = fun x => decide (x = k) from rfl]
  by_cases hex : ∃ e ∈ subsetOf df asset exchange_a exchange_b, ekey e = k
  · rw [if_pos hex]
    exact length_filter_eq_one_of_nodup (groupKeys_nodup _)
      (mem_groupKeys.mpr hex)
  · rw [if_neg hex]
    exact length_filter_eq_zero_of_not_mem
      (fun hmem => hex (mem_groupKeys.mp hmem))

/-! ## The intersected observation window -/

theorem date_bounds_of_mem_dailyTable {df : List Event}
    {asset exchange_a exchange_b : String} {r : DRow}
    (hr : r ∈ dailyTable df asset exchange_a exchange_b) :
    dateGe r.date (windowStart df asset exchange_a exchange_b) = true ∧
    dateLe r.date (windowEnd df asset exchange_a exchange_b) = true := by
  have hk := (mem_daily_sum hr).1
  obtain ⟨e, he, hek⟩ := mem_groupKeys.mp hk
  have hdate : e.date = r.date := by
    have : ekey e = (r.base, r.exchange, r.date) := hek
    simp only [ekey, Prod.mk.injEq] at this
    exact this.2.2
  obtain ⟨-, hge, hle, -, -⟩ := mem_subsetOf he
  exact ⟨hdate ▸ hge, hdate ▸ hle⟩

/-- C4: when both venues have events for the asset, the aggregation window is
the closed range from the larger of the two per-venue minimum days to the
smaller of the two maximum days; every daily row and every output row falls
inside it, and an inverted (empty) window yields zero rows rather than an
error. -/
theorem C4_window_intersection (df : List Event)
    (asset exchange_a exchange_b : String) (mna mxa mnb mxb : Nat)
    (h1 : get_min_max_date df asset exchange_a = (some mna, some mxa))
    (h2 : get_min_max_date df asset exchange_b = (some mnb, some mxb)) :
    windowStart df asset exchange_a exchange_b = some (Nat.max mna mnb) ∧
    windowEnd df asset exchange_a exchange_b = some (Nat.min mxa mxb) ∧
    (∀ r ∈ dailyTable df asset exchange_a exchange_b,
        Nat.max mna mnb ≤ r.date ∧ r.date ≤ Nat.min mxa mxb) ∧
    (∀ r ∈ process_data df asset exchange_a exchange_b,
        Nat.max mna mnb ≤ r.date ∧ r.date ≤ Nat.min mxa mxb) ∧
    (Nat.min mxa mxb < Nat.max mna mnb →
        process_data df asset exchange_a exchange_b = []) := by
  have hws : windowStart df asset exchange_a exchange_b =
      some (Nat.max mna mnb) := by
    rw [windowStart, h1, h2]; rfl
  have hwe : windowEnd df asset exchange_a exchange_b =
      some (Nat.min mxa mxb) := by
    rw [windowEnd, h1, h2]; rfl
  have hdaily : ∀ r ∈ dailyTable df asset exchange_a exchange_b,
      Nat.max mna mnb ≤ r.date ∧ r.date ≤ Nat.min mxa mxb := by
    intro r hr
    have hb := date_bounds_of_mem_dailyTable hr
    rw [hws, hwe] at hb
    simp only [dateGe, dateLe, decide_eq_true_eq] at hb
    exact hb
  refine ⟨hws, hwe, hdaily, ?_, ?_⟩
  · intro r hr
    obtain ⟨x, hx, y, -, -, rfl⟩ := mem_process_data.mp hr
    have hxd : (cdrow x).date = x.date := rfl
    have := hdaily (cdrow x) (cdrow_mem_of_mem_with_cumulative hx)
    rw [hxd] at this
    exact this
  · intro hlt
    have hsubset : subsetOf df asset exchange_a exchange_b = [] := by
      rw [subsetOf, List.filter_eq_nil_iff]
      intro e _ hcond
      rw [hws, hwe] at hcond
      simp only [dateGe, dateLe, Bool.and_eq_true, decide_eq_true_eq] at hcond
      exact absurd (le_trans hcond.1.1.1 hcond.1.1.2) (not_le.mpr hlt)
    rw [process_data, cumTable, dailyTable, hsubset]
    rfl

def winEvents : List Event :=
  [⟨5, "A", "X", 1⟩, ⟨20, "A", "X", 1⟩, ⟨10, "A", "Y", 1⟩, ⟨30, "A", "Y", 1⟩]

/-- Witness for C4: venue X observed on days [5, 20] and venue Y on
days [10, 30] give the window [10, 20]. -/
theorem C4_window_intersection_witness :
    windowStart winEvents "A" "X" "Y" = some (Nat.max 5 10) ∧
    windowEnd winEvents "A" "X" "Y" = some (Nat.min 20 30) :=
  ⟨(C4_window_intersection winEvents "A" "X" "Y" 5 20 10 30
      (by simp [get_min_max_date, winEvents, listMin?, listMax?])
      (by simp [get_min_max_date, winEvents, listMin?, listMax?])).1,
   (C4_window_intersection winEvents "A" "X" "Y" 5 20 10 30
      (by simp [get_min_max_date, winEvents, listMin?, listMax?])
      (by simp [get_min_max_date, winEvents, listMin?, listMax?])).2.1⟩

/-- C7: the sequence of rows returned by `process_data` is sorted by day in
ascending order. -/
theorem C7_sorted_by_day (df : List Event)
    (asset exchange_a exchange_b : String) :
    List.Sorted (fun r1 r2 : PairRow => r1.date ≤ r2.date)
      (process_data df asset exchange_a exchange_b) := by
  rw [process_data, pairStage]
  refine List.pairwise_flatMap.mpr ⟨?_, ?_⟩
  · intro x _
    refine List.pairwise_of_forall_mem_list ?_
    intro u hu v hv
    obtain ⟨y1, -, rfl⟩ := List.mem_map.mp hu
    obtain ⟨y2, -, rfl⟩ := List.mem_map.mp hv
    exact le_refl x.date
  · refine (cumTable_sorted df asset exchange_a exchange_b).imp ?_
    intro x1 x2 h12 u hu v hv
    obtain ⟨y1, hy1, rfl⟩ := List.mem_map.mp hu
    obtain ⟨y2, hy2, rfl⟩ := List.mem_map.mp hv
    obtain ⟨hb1, he1, -, -, -, -⟩ :=
      pairSel_eq_true_iff.mp (List.mem_filter.mp hy1).2
    obtain ⟨hb2, he2, -, -, -, -⟩ :=
      pairSel_eq_true_iff.mp (List.mem_filter.mp hy2).2
    show x1.date ≤ x2.date
    exact keyLE_date_le h12 (by simp [ckey, hb1, hb2]) (by simp [ckey, he1, he2])

/-! ## Relating grouped sums back to raw event sums -/

theorem eventSum_cons (k : String × String × Nat) (e : Event)
    (L : List Event) :
    eventSum k (e :: L) =
      (if ekey e = k then e.rate else 0) + eventSum k L := by
  by_cases h : ekey e = k <;> simp [eventSum, List.filter_cons, h]

theorem sum_map_ite_eq {c : ℚ} :
    ∀ (K : List (String × String × Nat)), K.Nodup →
    ∀ (a : String × String × Nat),
      (K.map fun k => if a = k then c else 0).sum = if a ∈ K then c else 0 := by
  intro K
  induction K with
  | nil => intro _ a; simp
  | cons b t ih =>
    intro hK a
    obtain ⟨hb, ht⟩ := List.nodup_cons.mp hK
    rw [List.map_cons, List.sum_cons, ih ht a]
    by_cases hab : a = b
    · subst hab
      simp [hb]
    · simp [hab, Ne.symm, List.mem_cons]

theorem sum_eventSum_filter (Q : (String × String × Nat) → Bool) :
    ∀ (L : List Event) (K : List (String × String × Nat)), K.Nodup →
      (∀ e ∈ L, Q (ekey e) = true → ekey e ∈ K) →
      ((K.filter Q).map fun k => eventSum k L).sum =
        ((L.filter fun e => Q (ekey e)).map (·.rate)).sum := by
  intro L
  induction L with
  | nil =>
    intro K _ _
    simp [eventSum]
  | cons e L' ih =>
    intro K hK hcov
    have hstep :
        ((K.filter Q).map fun k => eventSum k (e :: L')).sum =
          ((K.filter Q).map fun k => if ekey e = k then e.rate else 0).sum +
          ((K.filter Q).map fun k => eventSum k L').sum := by
      rw [← List.sum_map_add]
      refine congrArg List.sum (List.map_congr_left ?_)
      intro k _
      exact eventSum_cons k e L'
    rw [hstep, sum_map_ite_eq (K.filter Q) (hK.filter Q) (ekey e),
      ih K hK (fun e' he' => hcov e' (List.mem_cons_of_mem e he')),
      List.filter_cons]
    by_cases hQ : Q (ekey e) = true
    · have hmem : ekey e ∈ K.filter Q :=
        List.mem_filter.mpr ⟨hcov e (List.mem_cons_self e L') hQ, hQ⟩
      simp [hQ, hmem]
    · have hnmem : ekey e ∉ K.filter Q := fun hmem =>
        hQ (List.mem_filter.mp hmem).2
      simp [hQ, hnmem]

theorem daily_sum_upTo_sum (L : List Event) (β ε : String) (D : Nat) :
    (((daily_sum L).filter (upTo β ε D)).map (·.dailyFunding)).sum =
      ((L.filter fun e => decide (e.base = β) && decide (e.exchange = ε) &&
          decide (e.date ≤ D)).map (·.rate)).sum := by
  rw [daily_sum_eq_map, List.filter_map, List.map_map]
  exact sum_eventSum_filter
    (fun k => decide (k.1 = β) && decide (k.2.1 = ε) && decide (k.2.2 ≤ D))
    L (groupKeys L) (groupKeys_nodup L)
    (fun e he _ => mem_groupKeys.mpr ⟨e, he, rfl⟩)

theorem subset_filter_events {df : List Event}
    {asset exchange_a exchange_b : String} {s en : Nat}
    (hws : windowStart df asset exchange_a exchange_b = some s)
    (hwe : windowEnd df asset exchange_a exchange_b = some en)
    {ε : String} (hε : ε = exchange_a ∨ ε = exchange_b) {D : Nat}
    (hD : D ≤ en) :
    (subsetOf df asset exchange_a exchange_b).filter
      (fun e => decide (e.base = asset) && decide (e.exchange = ε) &&
        decide (e.date ≤ D)) =
    df.filter (fun e => decide (e.base = asset) && decide (e.exchange = ε) &&
      decide (s ≤ e.date) && decide (e.date ≤ D)) := by
  rw [subsetOf, List.filter_filter]
  refine List.filter_congr ?_
  intro e _
  rw [hws, hwe]
  rw [← Bool.coe_iff_coe]
  simp only [dateGe, dateLe, Bool.and_eq_true, Bool.or_eq_true,
    decide_eq_true_eq]
  constructor
  · rintro ⟨⟨⟨hb, he⟩, hd⟩, ⟨⟨⟨hs', -⟩, -⟩, -⟩⟩
    exact ⟨⟨⟨hb, he⟩, hs'⟩, hd⟩
  · rintro ⟨⟨⟨hb, he⟩, hs'⟩, hd⟩
    refine ⟨⟨⟨hb, he⟩, hd⟩, ⟨⟨hs', le_trans hd hD⟩, hb⟩, ?_⟩
    rcases hε with rfl | rfl
    · exact Or.inl he
    · exact Or.inr he

theorem cum_value_daily {df : List Event}
    {asset exchange_a exchange_b : String} {x : CRow}
    (hx : x ∈ cumTable df asset exchange_a exchange_b) :
    x.cumulativeFunding =
      (((dailyTable df asset exchange_a exchange_b).filter
        (upTo x.base x.exchange x.date)).map (·.dailyFunding)).sum :=
  with_cumulative_cum (daily_sum_sorted _) (daily_sum_nodup_keys _) x hx

theorem window_bounds_of_mem_cumTable {df : List Event}
    {asset exchange_a exchange_b : String} {x : CRow}
    (hx : x ∈ cumTable df asset exchange_a exchange_b) :
    ∃ s en, windowStart df asset exchange_a exchange_b = some s ∧
      windowEnd df asset exchange_a exchange_b = some en ∧
      s ≤ x.date ∧ x.date ≤ en := by
  have hb := date_bounds_of_mem_dailyTable (cdrow_mem_of_mem_with_cumulative hx)
  cases hws : windowStart df asset exchange_a exchange_b with
  | none => rw [hws] at hb; simp [dateGe] at hb
  | some s =>
    cases hwe : windowEnd df asset exchange_a exchange_b with
    | none => rw [hwe] at hb; simp [dateLe] at hb
    | some en =>
      rw [hws, hwe] at hb
      simp only [dateGe, dateLe, decide_eq_true_eq] at hb
      exact ⟨s, en, rfl, rfl, hb.1, hb.2⟩

theorem cum_value_events {df : List Event}
    {asset exchange_a exchange_b : String} {x : CRow}
    (hx : x ∈ cumTable df asset exchange_a exchange_b)
    (hbase : x.base = asset)
    (hε : x.exchange = exchange_a ∨ x.exchange = exchange_b) :
    ∃ s, windowStart df asset exchange_a exchange_b = some s ∧
      x.cumulativeFunding =
        ((df.filter fun e => decide (e.base = asset) &&
            decide (e.exchange = x.exchange) && decide (s ≤ e.date) &&
            decide (e.date ≤ x.date)).map (·.rate)).sum := by
  obtain ⟨s, en, hws, hwe, -, hDe⟩ := window_bounds_of_mem_cumTable hx
  refine ⟨s, hws, ?_⟩
  rw [cum_value_daily hx, hbase, dailyTable, daily_sum_upTo_sum,
    subset_filter_events hws hwe hε hDe]

/-- C1: in every output row the cumulative-funding fields are prefix sums of
the daily totals of the same `(Base, Exchange)` series over the days up to
the row's day, which in turn equal the direct sums of the raw `FundingRate`
values of the venue's events with day between the window start and the row's
day; the daily rows are sorted by `(Base, Exchange, Date)` before the prefix
sum is taken. -/
theorem C1_running_totals (df : List Event)
    (asset exchange_a exchange_b : String) :
    List.Sorted (fun p q : DRow => keyLE (dkey p) (dkey q))
      (dailyTable df asset exchange_a exchange_b) ∧
    ∀ r ∈ process_data df asset exchange_a exchange_b,
      ∃ s, windowStart df asset exchange_a exchange_b = some s ∧
        r.cumulativeFunding_a =
          (((dailyTable df asset exchange_a exchange_b).filter
            (upTo asset exchange_a r.date)).map (·.dailyFunding)).sum ∧
        r.cumulativeFunding_a =
          ((df.filter fun e => decide (e.base = asset) &&
              decide (e.exchange = exchange_a) && decide (s ≤ e.date) &&
              decide (e.date ≤ r.date)).map (·.rate)).sum ∧
        r.cumulativeFunding_b =
          (((dailyTable df asset exchange_a exchange_b).filter
            (upTo asset exchange_b r.date)).map (·.dailyFunding)).sum ∧
        r.cumulativeFunding_b =
          ((df.filter fun e => decide (e.base = asset) &&
              decide (e.exchange = exchange_b) && decide (s ≤ e.date) &&
              decide (e.date ≤ r.date)).map (·.rate)).sum := by
  refine ⟨daily_sum_sorted _, ?_⟩
  intro r hr
  obtain ⟨x, hx, y, hy, hsel, rfl⟩ := mem_process_data.mp hr
  obtain ⟨hxb, hxa, hyb, -, hybase, hydate⟩ := pairSel_eq_true_iff.mp hsel
  obtain ⟨s, hws, hxev⟩ := cum_value_events hx hxb (Or.inl hxa)
  obtain ⟨s2, hws2, hyev⟩ := cum_value_events hy (hybase.trans hxb)
    (Or.inr hyb)
  have hss : s2 = s := by
    rw [hws] at hws2
    exact (Option.some_inj.mp hws2).symm
  refine ⟨s, hws, ?_, ?_, ?_, ?_⟩
  · show x.cumulativeFunding = _
    have h := cum_value_daily hx
    rw [hxb, hxa] at h
    exact h
  · show x.cumulativeFunding = _
    rw [hxa] at hxev
    exact hxev
  · show y.cumulativeFunding = _
    have h := cum_value_daily hy
    rw [hybase, hxb, hyb, hydate] at h
    exact h
  · show y.cumulativeFunding = _
    rw [hss, hyb, hydate] at hyev
    exact hyev

/-- Witness for C1 at the §8 scenario's day-2 row. -/
theorem C1_running_totals_witness :
    ∃ s, windowStart specEvents "BTC" "X" "Y" = some s ∧
      specRow2.cumulativeFunding_a =
        (((dailyTable specEvents "BTC" "X" "Y").filter
          (upTo "BTC" "X" specRow2.date)).map (·.dailyFunding)).sum ∧
      specRow2.cumulativeFunding_a =
        ((specEvents.filter fun e => decide (e.base = "BTC") &&
            decide (e.exchange = "X") && decide (s ≤ e.date) &&
            decide (e.date ≤ specRow2.date)).map (·.rate)).sum ∧
      specRow2.cumulativeFunding_b =
        (((dailyTable specEvents "BTC" "X" "Y").filter
          (upTo "BTC" "Y" specRow2.date)).map (·.dailyFunding)).sum ∧
      specRow2.cumulativeFunding_b =
        ((specEvents.filter fun e => decide (e.base = "BTC") &&
            decide (e.exchange = "Y") && decide (s ≤ e.date) &&
            decide (e.date ≤ specRow2.date)).map (·.rate)).sum :=
  (C1_running_totals specEvents "BTC" "X" "Y").2 specRow2
    (by rw [spec_eval]; simp)

/-! ## Commuting the venue restriction with the pipeline stages -/

theorem dedup_filter {α : Type} [DecidableEq α] (p : α → Bool) :
    ∀ l : List α, (l.filter p).dedup = l.dedup.filter p := by
  intro l
  induction l with
  | nil => simp
  | cons a t ih =>
    by_cases hp : p a = true
    · by_cases ham : a ∈ t
      · have h1 : a ∈ t.filter p := List.mem_filter.mpr ⟨ham, hp⟩
        simp [List.filter_cons, hp, List.dedup_cons_of_mem ham,
          List.dedup_cons_of_mem h1, ih]
      · have h1 : a ∉ t.filter p := fun h => ham (List.mem_filter.mp h).1
        simp [List.filter_cons, hp, List.dedup_cons_of_not_mem ham,
          List.dedup_cons_of_not_mem h1, ih]
    · by_cases ham : a ∈ t
      · simp [List.filter_cons, hp, List.dedup_cons_of_mem ham, ih]
      · simp [List.filter_cons, hp, List.dedup_cons_of_not_mem ham, ih]

theorem insertionSort_filter (p : (String × String × Nat) → Bool)
    (K : List (String × String × Nat)) :
    List.insertionSort keyLE (K.filter p) =
      (List.insertionSort keyLE K).filter p :=
  List.eq_of_perm_of_sorted
    ((List.perm_insertionSort keyLE _).trans
      ((List.perm_insertionSort keyLE K).filter p).symm)
    (List.sorted_insertionSort keyLE _)
    ((List.sorted_insertionSort keyLE K).filter p)

theorem groupKeys_filter (Q : (String × String × Nat) → Bool)
    (L : List Event) :
    groupKeys (L.filter fun e => Q (ekey e)) = (groupKeys L).filter Q := by
  rw [groupKeys, groupKeys,
    show (fun e => Q (ekey e)) = Q ∘ ekey from rfl, ← List.filter_map,
    dedup_filter, insertionSort_filter]

theorem eventSum_filter_of_true {Q : (String × String × Nat) → Bool}
    {k : String × String × Nat} (hk : Q k = true) (L : List Event) :
    eventSum k (L.filter fun e => Q (ekey e)) = eventSum k L := by
  unfold eventSum
  rw [List.filter_filter]
  refine congrArg (fun t => (List.map Event.rate t).sum) ?_
  refine List.filter_congr ?_
  intro e _
  by_cases he : ekey e = k
  · simp [he, hk]
  · simp [he]

theorem daily_sum_filter (Q : (String × String × Nat) → Bool)
    (L : List Event) :
    daily_sum (L.filter fun e => Q (ekey e)) =
      (daily_sum L).filter fun r => Q (dkey r) := by
  rw [daily_sum_eq_map, daily_sum_eq_map, groupKeys_filter, List.filter_map,
    show ((fun r => Q (dkey r)) ∘ (fun k : String × String × Nat =>
      (⟨k.1, k.2.1, k.2.2, eventSum k L⟩ : DRow))) = Q from rfl]
  refine List.map_congr_left ?_
  intro k hk
  rw [eventSum_filter_of_true (List.mem_filter.mp hk).2]

theorem groupTotal_filter (PB : String × String → Bool)
    {g : String × String} (hg : PB g = true) (l : List DRow) :
    groupTotal g (l.filter fun r => PB (r.base, r.exchange)) =
      groupTotal g l := by
  unfold groupTotal
  rw [List.filter_filter]
  refine congrArg (fun t => (List.map DRow.dailyFunding t).sum) ?_
  refine List.filter_congr ?_
  intro r _
  by_cases he : (r.base, r.exchange) = g
  · simp [he, hg]
  · simp [he]

theorem cumsumAux_filter (PB : String × String → Bool) :
    ∀ (l pre : List DRow),
      cumsumAux (pre.filter fun r => PB (r.base, r.exchange))
        (l.filter fun r => PB (r.base, r.exchange)) =
      (cumsumAux pre l).filter fun c => PB (c.base, c.exchange) := by
  intro l
  induction l with
  | nil => intro pre; rfl
  | cons r rs ih =>
    intro pre
    rw [List.filter_cons]
    by_cases hp : PB (r.base, r.exchange) = true
    · simp only [hp, if_true]
      show cumsumAux _ (r :: _) = _
      rw [cumsumAux, cumsumAux, List.filter_cons]
      simp only [hp, if_true]
      have hpre : (pre.filter fun t => PB (t.base, t.exchange)) ++ [r] =
          (pre ++ [r]).filter fun t => PB (t.base, t.exchange) := by
        rw [List.filter_append, List.filter_cons]
        simp [hp]
      rw [hpre, groupTotal_filter PB hp, ih (pre ++ [r])]
    · rw [Bool.not_eq_true] at hp
      simp only [hp, Bool.false_eq_true, if_false]
      rw [cumsumAux, List.filter_cons]
      simp only [hp, Bool.false_eq_true, if_false]
      have hpre : (pre.filter fun t => PB (t.base, t.exchange)) =
          (pre ++ [r]).filter fun t => PB (t.base, t.exchange) := by
        rw [List.filter_append, List.filter_cons]
        simp [hp]
      rw [hpre, ih (pre ++ [r])]

theorem with_cumulative_filter (PB : String × String → Bool) (l : List DRow) :
    with_cumulative (l.filter fun r => PB (r.base, r.exchange)) =
      (with_cumulative l).filter fun c => PB (c.base, c.exchange) :=
  cumsumAux_filter PB l []

theorem filter_filter_of_imp {α : Type} {p q : α → Bool} {l : List α}
    (h : ∀ y, q y = true → p y = true) :
    (l.filter p).filter q = l.filter q := by
  rw [List.filter_filter]
  refine List.filter_congr ?_
  intro y _
  by_cases hq : q y = true
  · simp [hq, h y hq]
  · simp [hq]

theorem flatMap_filter_eq {α β : Type} {p : α → Bool} (g : α → List β) :
    ∀ (l : List α), (∀ x ∈ l, p x = false → g x = []) →
      (l.filter p).flatMap g = l.flatMap g := by
  intro l
  induction l with
  | nil => intro _; rfl
  | cons a t ih =>
    intro h
    rw [List.filter_cons]
    by_cases hp : p a = true
    · simp only [hp, if_true]
      rw [List.flatMap_cons, List.flatMap_cons,
        ih (fun x hx => h x (List.mem_cons_of_mem a hx))]
    · rw [Bool.not_eq_true] at hp
      simp only [hp, Bool.false_eq_true, if_false]
      rw [List.flatMap_cons, h a (List.mem_cons_self a t) hp,
        List.nil_append, ih (fun x hx => h x (List.mem_cons_of_mem a hx))]

/-- "The venue is one of the two requested" as a predicate on keys. -/
def exQ (exchange_a exchange_b : String) (k : String × String × Nat) : Bool :=
  decide (k.2.1 = exchange_a) || decide (k.2.1 = exchange_b)

/-- "The venue is one of the two requested" as a predicate on groups. -/
def exPB (exchange_a exchange_b : String) (g : String × String) : Bool :=
  decide (g.2 = exchange_a) || decide (g.2 = exchange_b)

theorem subsetOf_eq_filter_all (df : List Event)
    (asset exchange_a exchange_b : String) :
    subsetOf df asset exchange_a exchange_b =
      (subsetAllVenues df asset exchange_a exchange_b).filter
        fun e => exQ exchange_a exchange_b (ekey e) := by
  rw [subsetOf, subsetAllVenues, List.filter_filter]
  refine List.filter_congr ?_
  intro e _
  simp only [exQ, ekey]
  generalize dateGe e.date (windowStart df asset exchange_a exchange_b) = b1
  generalize dateLe e.date (windowEnd df asset exchange_a exchange_b) = b2
  generalize decide (e.base = asset) = b3
  generalize decide (e.exchange = exchange_a) = b4
  generalize decide (e.exchange = exchange_b) = b5
  cases b1 <;> cases b2 <;> cases b3 <;> cases b4 <;> cases b5 <;> rfl

theorem pairStage_filter (M : List CRow) (asset exchange_a exchange_b : String) :
    (pair_df (M.filter fun c =>
        exPB exchange_a exchange_b (c.base, c.exchange))).filter
      (finalPred asset exchange_a exchange_b) =
    (pair_df M).filter (finalPred asset exchange_a exchange_b) := by
  rw [pairStage, pairStage]
  have hinner : ∀ x : CRow,
      (M.filter fun c => exPB exchange_a exchange_b (c.base, c.exchange)).filter
        (pairSel asset exchange_a exchange_b x) =
      M.filter (pairSel asset exchange_a exchange_b x) := by
    intro x
    refine filter_filter_of_imp ?_
    intro y hy
    obtain ⟨-, -, hyb, -, -, -⟩ := pairSel_eq_true_iff.mp hy
    simp [exPB, hyb]
  simp only [hinner]
  refine flatMap_filter_eq _ _ ?_
  intro x _ hx
  have hxa : ¬ x.exchange = exchange_a := by
    intro hcontra
    rw [exPB] at hx
    simp [hcontra] at hx
  have hnil : M.filter (pairSel asset exchange_a exchange_b x) = [] := by
    rw [List.filter_eq_nil_iff]
    intro y _ hsel
    obtain ⟨-, hxe, -, -, -, -⟩ := pairSel_eq_true_iff.mp hsel
    exact hxa hxe
  rw [hnil, List.map_nil]

/-- C8: restricting the table to exactly the two requested venues before the
grouped sum, the cumulative sum and the self-join (as the code does) yields
the same final row sequence as running the same pipeline over all venues
present for the asset inside the window and filtering to the requested
canonical pair only at the end, the `Exchange_a < Exchange_b` tie-break being
applied in both versions. -/
theorem C8_restrict_venues_equiv (df : List Event)
    (asset exchange_a exchange_b : String) :
    process_data df asset exchange_a exchange_b =
      process_data_all_venues df asset exchange_a exchange_b := by
  rw [process_data, process_data_all_venues, cumTable, dailyTable,
    subsetOf_eq_filter_all, daily_sum_filter,
    show (fun r => exQ exchange_a exchange_b (dkey r)) =
      (fun r : DRow => exPB exchange_a exchange_b (r.base, r.exchange))
      from rfl,
    with_cumulative_filter, pairStage_filter]
